import Mathlib

/-!
Verification of the encrypted-stream record layer (nonce codec, record
framing, stream engine) against its specification.  Byte sequences are
modelled as `List Nat` with every entry `< 256`; byte arithmetic that can
overflow is written with an explicit `% 256`.  Fallible operations return
`Except`; the underlying transport is modelled as the list of bytes on the
wire.  Randomness (`crypto/rand.Read`) is modelled as an explicit source of
nonce bytes passed to the encoder.
-/

set_option linter.unusedVariables false

abbrev Bytes := List Nat

/-- Little-endian value of a byte list (head is the least significant byte). -/
def valLE : Bytes → Nat
  | [] => 0
  | x :: xs => x + 256 * valLE xs

/-- Big-endian value of a byte list (head is the most significant byte);
this is the numeric value of a nonce under the big-endian counter reading. -/
def valBE (b : Bytes) : Nat := valLE b.reverse

/-- Embedding of Go `bytes.Compare`: lexicographic byte comparison, a strict
prefix compares less. -/
def bytesCompare : Bytes → Bytes → Ordering
  | [], [] => .eq
  | [], _ :: _ => .lt
  | _ :: _, [] => .gt
  | x :: xs, y :: ys =>
    if x < y then .lt else if y < x then .gt else bytesCompare xs ys

/-- Helper for `incrementNonce`, acting on the reversed byte list: add one to
the first byte (mod 256) and propagate the carry while bytes wrap to zero.
This mirrors the Go loop `for i := len(b)-1; i >= 0; i--`. -/
def incrementNonceAux : Bytes → Bytes
  | [] => []
  | x :: xs =>
    let x' := (x + 1) % 256
    if 0 < x' then x' :: xs else x' :: incrementNonceAux xs

/-- Embedding of `incrementNonce` (encoding.go): increment a big-endian
counter in place, the carry propagating leftward and wrapping silently. -/
def incrementNonce (b : Bytes) : Bytes :=
  (incrementNonceAux b.reverse).reverse

/-- Embedding of `initNonce` (encoding.go): an all-zero nonce, with the top
bit of byte 0 set when the owner is not the initiator. -/
def initNonce (nonceSize : Nat) (initiator : Bool) : Bytes :=
  let b := List.replicate nonceSize 0
  if initiator then b else b.set 0 ((b.headD 0) ||| 128)

/-- Embedding of `maxNonce` (encoding.go): an all-255 nonce, with the top bit
of byte 0 cleared when the owner is the initiator. -/
def maxNonce (nonceSize : Nat) (initiator : Bool) : Bytes :=
  let b := List.replicate nonceSize 255
  if initiator then b.set 0 ((b.headD 0) &&& 127) else b

/-- Abstract cipher capability used by the codec: the `Cipher` interface of
the repository (`Encrypt`, `Decrypt`, `MaxOverhead`, `NonceSize`), with the
nonce passed explicitly as in encoding.go.  `encrypt plaintext nonce` returns
the authenticated ciphertext; `decrypt ciphertext nonce` returns `none` on
authentication failure.  Sizes are the non-negative ints of the contract. -/
structure Cipher where
  nonceSize : Nat
  maxOverhead : Nat
  encrypt : Bytes → Bytes → Bytes
  decrypt : Bytes → Bytes → Option Bytes

/-- Error returned by `Encoder.Encode` when the sequential nonce space is
exhausted (`ErrMaxNonce`). -/
inductive EncodeError
  | errMaxNonce
deriving DecidableEq

/-- Errors returned by `Decoder.Decode`: invalid record size, wrong nonce
direction (`ErrWrongNonceInitiator`), wrong sequential nonce value
(`ErrWrongNonceSequential`), or cipher decryption/authentication failure. -/
inductive DecodeError
  | invalidSize
  | wrongInitiator
  | wrongSequential
  | decryptFailed
deriving DecidableEq

/-- Embedding of the `Encoder` struct of encoding.go. -/
structure Encoder where
  cipher : Cipher
  initiator : Bool
  sequentialNonce : Bool
  nextNonce : Bytes
  maxNonce : Bytes

/-- Embedding of `NewEncoder` (encoding.go). -/
def NewEncoder (cipher : Cipher) (initiator sequentialNonce : Bool) : Encoder :=
  { cipher := cipher
    initiator := initiator
    sequentialNonce := sequentialNonce
    nextNonce := initNonce cipher.nonceSize initiator
    maxNonce := maxNonce cipher.nonceSize initiator }

/-- Embedding of `Encoder.Encode` (encoding.go): produce nonce‖ciphertext.
`rnd` models the bytes that `rand.Read` would place in the nonce slot in
random-nonce mode (unused in sequential mode).  The result pairs the Go
return value with the encoder state after the call. -/
def Encoder.Encode (e : Encoder) (rnd : Bytes) (plaintext : Bytes) :
    Except EncodeError Bytes × Encoder :=
  if e.sequentialNonce = true then
    if bytesCompare e.nextNonce e.maxNonce ≠ .lt then
      (.error .errMaxNonce, e)
    else
      (.ok (e.nextNonce ++ e.cipher.encrypt plaintext e.nextNonce),
       { e with nextNonce := incrementNonce e.nextNonce })
  else
    let nonce0 := rnd.take e.cipher.nonceSize
    let nonce :=
      if e.initiator = true then nonce0.set 0 ((nonce0.headD 0) &&& 127)
      else nonce0.set 0 ((nonce0.headD 0) ||| 128)
    (.ok (nonce ++ e.cipher.encrypt plaintext nonce), e)

/-- Embedding of the `Decoder` struct of encoding.go. -/
structure Decoder where
  cipher : Cipher
  initiator : Bool
  sequentialNonce : Bool
  disableNonceVerification : Bool
  nextNonce : Bytes

/-- Embedding of `NewDecoder` (encoding.go): the expected nonce starts at the
peer direction's initial value. -/
def NewDecoder (cipher : Cipher) (initiator sequentialNonce disableNonceVerification : Bool) :
    Decoder :=
  { cipher := cipher
    initiator := initiator
    sequentialNonce := sequentialNonce
    disableNonceVerification := disableNonceVerification
    nextNonce := initNonce cipher.nonceSize (!initiator) }

/-- Embedding of `Decoder.Decode` (encoding.go): size check, direction-bit
check, sequential-nonce check, decrypt, then increment of the expected nonce.
The result pairs the Go return value with the decoder state after the call. -/
def Decoder.Decode (d : Decoder) (ciphertext : Bytes) :
    Except DecodeError Bytes × Decoder :=
  if ciphertext.length ≤ d.cipher.nonceSize then
    (.error .invalidSize, d)
  else
    let nonce := ciphertext.take d.cipher.nonceSize
    if d.disableNonceVerification = false ∧ d.initiator = true ∧ (nonce.headD 0) >>> 7 ≠ 1 then
      (.error .wrongInitiator, d)
    else if d.disableNonceVerification = false ∧ d.initiator = false ∧ (nonce.headD 0) >>> 7 ≠ 0 then
      (.error .wrongInitiator, d)
    else if d.disableNonceVerification = false ∧ d.sequentialNonce = true ∧ nonce ≠ d.nextNonce then
      (.error .wrongSequential, d)
    else
      match d.cipher.decrypt (ciphertext.drop d.cipher.nonceSize) nonce with
      | none => (.error .decryptFailed, d)
      | some pt =>
        if d.sequentialNonce = true then
          (.ok pt, { d with nextNonce := incrementNonce d.nextNonce })
        else
          (.ok pt, d)

/-- The four little-endian bytes of `uint32(n)`
(`binary.LittleEndian.PutUint32`). -/
def putUint32LE (n : Nat) : Bytes :=
  [n % 256, n / 256 % 256, n / 65536 % 256, n / 16777216 % 256]

/-- Decoding of a 4-byte little-endian length field
(`binary.LittleEndian.Uint32`). -/
def getUint32LE (b : Bytes) : Nat :=
  b.getD 0 0 + 256 * b.getD 1 0 + 65536 * b.getD 2 0 + 16777216 * b.getD 3 0

/-- Stream-level errors: the lifecycle error `io.ErrClosedPipe`, transport
end-of-stream from `io.ReadFull`, `io.ErrShortBuffer`, the oversize-record
error of `Read`, codec errors, the `writeVarBytes` size error, and a marker
for exhausted fuel in the bounded read-repetition loop. -/
inductive StreamError
  | closedPipe
  | eof
  | shortBuffer
  | invalidDataSize
  | decodeErr (e : DecodeError)
  | encodeErr (e : EncodeError)
  | dataTooLarge
  | outOfFuel
deriving DecidableEq

/-- Embedding of `writeVarBytes` (encoding.go): fails when the payload length
exceeds `math.MaxInt32`, otherwise produces the 4-byte little-endian length
followed by the payload (the bytes handed to the blocking transport write). -/
def writeVarBytes (b : Bytes) : Except StreamError Bytes :=
  if 2147483647 < b.length then .error .dataTooLarge
  else .ok (putUint32LE b.length ++ b)

/-- Embedding of `readVarBytes` (encoding.go) over a wire modelled as the
list of unconsumed transport bytes: read 4 length bytes, fail with
`io.ErrShortBuffer` when the destination buffer (of size `bufLen`) is smaller
than the announced length, then read exactly that many payload bytes.
Returns the payload and the remaining wire. -/
def readVarBytes (bufLen : Nat) (wire : Bytes) : Except StreamError (Bytes × Bytes) :=
  if wire.length < 4 then .error .eof
  else
    let n := getUint32LE (wire.take 4)
    if bufLen < n then .error .shortBuffer
    else if (wire.drop 4).length < n then .error .eof
    else .ok ((wire.drop 4).take n, (wire.drop 4).drop n)

/-- Errors reported by config verification (config.go), each standing for one
of its `errors.New` values. -/
inductive ConfigError
  | nilConfig
  | negativeMaxOverhead
  | negativeNonceSize
  | nonPositiveChunkSize
deriving DecidableEq

/-- Outcome of `Config.Verify`: a returned error, success, or the nil-pointer
panic that the Go code hits when it calls `config.Cipher.MaxOverhead()` on a
nil cipher (there is no nil-cipher check in config.go). -/
inductive VerifyResult
  | ok
  | err (e : ConfigError)
  | panicNilCipher

/-- Embedding of the `Config` struct of config.go.  `cipher = none` is a nil
`Cipher` interface value; `maxChunkSize` keeps Go's signed `int` type. -/
structure Config where
  cipher : Option Cipher
  maxChunkSize : Int
  initiator : Bool
  sequentialNonce : Bool
  disableNonceVerification : Bool

/-- Embedding of `DefaultConfig` (config.go). -/
def DefaultConfig : Config :=
  { cipher := none
    maxChunkSize := 65535
    initiator := false
    sequentialNonce := false
    disableNonceVerification := false }

/-- Embedding of `Config.Verify` (config.go), with its checks in source
order.  Calling `MaxOverhead` on a nil cipher interface is a nil-pointer
dereference in Go, modelled as the distinguished `panicNilCipher` outcome. -/
def Config.Verify (config : Option Config) : VerifyResult :=
  match config with
  | none => .err .nilConfig
  | some c =>
    match c.cipher with
    | none => .panicNilCipher
    | some cipher =>
      if (cipher.maxOverhead : Int) < 0 then .err .negativeMaxOverhead
      else if (cipher.nonceSize : Int) < 0 then .err .negativeNonceSize
      else if c.maxChunkSize ≤ 0 then .err .nonPositiveChunkSize
      else .ok

/-- Embedding of `MergeConfig` (config.go): `mergo.Merge` with `WithOverride`
keeps each field of the base config unless the caller's field holds a
non-zero value (non-nil cipher, non-zero chunk size, `true` for booleans). -/
def MergeConfig (base : Config) (conf : Option Config) : Config :=
  match conf with
  | none => base
  | some c =>
    { cipher := match c.cipher with | some x => some x | none => base.cipher
      maxChunkSize := if c.maxChunkSize ≠ 0 then c.maxChunkSize else base.maxChunkSize
      initiator := c.initiator || base.initiator
      sequentialNonce := c.sequentialNonce || base.sequentialNonce
      disableNonceVerification := c.disableNonceVerification || base.disableNonceVerification }

/-- Embedding of the `EncryptedStream` struct (stream engine).  The reusable
byte buffers are abstracted away; `window` is the unread slice
`decryptBuffer[decryptBufStart:decryptBufEnd]`.  `hasCloser` records whether
the wrapped transport implements `io.Closer`. -/
structure EncryptedStream where
  isClosed : Bool
  hasCloser : Bool
  maxChunkSize : Nat
  encoder : Encoder
  decoder : Decoder
  window : Bytes

/-- Embedding of `NewEncryptedStream`: merge the caller config onto the
defaults, verify it, then build the codec pair.  A `Verify` failure (or its
nil-cipher panic) is surfaced as the corresponding `error`. -/
def NewEncryptedStream (hasCloser : Bool) (config : Option Config) :
    Except VerifyResult EncryptedStream :=
  let merged := MergeConfig DefaultConfig config
  match Config.Verify (some merged) with
  | .ok =>
    match merged.cipher with
    | some c =>
      .ok { isClosed := false
            hasCloser := hasCloser
            maxChunkSize := merged.maxChunkSize.toNat
            encoder := NewEncoder c merged.initiator merged.sequentialNonce
            decoder := NewDecoder c merged.initiator merged.sequentialNonce
              merged.disableNonceVerification
            window := [] }
    | none => .error .panicNilCipher
  | r => .error r

/-- Embedding of `EncryptedStream.IsClosed`. -/
def EncryptedStream.IsClosed (es : EncryptedStream) : Bool :=
  es.isClosed

/-- Embedding of `EncryptedStream.Close` (part_007): a second call is caught
by the `isClosed` guard; when the transport implements `io.Closer` the code
returns `stream.Close()` directly — before the line that sets `isClosed` —
so the flag is set only on the no-closer path.  `closeResult` is the result
the underlying transport's `Close()` would return on this call. -/
def EncryptedStream.Close (es : EncryptedStream) (closeResult : Except Unit Unit) :
    Except Unit Unit × EncryptedStream :=
  if es.isClosed = true then (.ok (), es)
  else if es.hasCloser = true then (closeResult, es)
  else (.ok (), { es with isClosed := true })

/-- Embedding of one `EncryptedStream.Read` call over a wire modelled as the
list of unconsumed transport bytes.  When the decrypted window is empty, pull
one record with `readVarBytes` (the read buffer has size
`MaxChunkSize + MaxOverhead + NonceSize`), reject oversize records, decode,
and refill the window; then serve up to `dstLen` bytes (the caller buffer
size) from the window.  Returns the bytes served, the stream state after the
call, and the remaining wire. -/
def EncryptedStream.Read (es : EncryptedStream) (dstLen : Nat) (wire : Bytes) :
    Except StreamError (Bytes × EncryptedStream × Bytes) :=
  if es.IsClosed = true then .error .closedPipe
  else
    let bound := es.maxChunkSize + es.decoder.cipher.maxOverhead + es.decoder.cipher.nonceSize
    if es.window = [] then
      match readVarBytes bound wire with
      | .error e => .error e
      | .ok (record, wire') =>
        if bound < record.length then .error .invalidDataSize
        else
          match es.decoder.Decode record with
          | (.error e, _) => .error (.decodeErr e)
          | (.ok pt, d') =>
            .ok (pt.take dstLen, { es with decoder := d', window := pt.drop dstLen }, wire')
    else
      .ok (es.window.take dstLen, { es with window := es.window.drop dstLen }, wire)

/-- Fuel-bounded chunk splitting; with fuel at least `b.length` and a
positive chunk size this yields the successive `≤ mcs`-byte chunks that the
`Write` loop encodes. -/
def chunksOfAux (mcs : Nat) : Nat → Bytes → List Bytes
  | _, [] => []
  | 0, _ => []
  | fuel + 1, b => b.take mcs :: chunksOfAux mcs fuel (b.drop mcs)

/-- The successive chunks of at most `mcs` bytes that `Write` feeds to the
encoder (`n := min (len b - bytesWrite) MaxChunkSize` per loop iteration). -/
def chunksOf (mcs : Nat) (b : Bytes) : List Bytes :=
  chunksOfAux mcs b.length b

/-- The body of the `Write` loop, one iteration per chunk: encode the chunk
(the random-mode nonce bytes for the `k`-th record come from `rand k`), emit
one framed record, and continue.  Returns Go's `(bytesWrite, err)` pair, the
final encoder state, and the bytes appended to the wire; on failure
`bytesWrite` counts only the chunks fully emitted before the failing one. -/
def writeChunks (rand : Nat → Bytes) (k : Nat) (e : Encoder) :
    List Bytes → (Nat × Option StreamError) × Encoder × Bytes
  | [] => ((0, none), e, [])
  | ch :: rest =>
    match e.Encode (rand k) ch with
    | (.error err, e') => ((0, some (.encodeErr err)), e', [])
    | (.ok record, e') =>
      match writeVarBytes record with
      | .error err => ((0, some err), e', [])
      | .ok frame =>
        let r := writeChunks rand (k + 1) e' rest
        ((ch.length + r.1.1, r.1.2), r.2.1, frame ++ r.2.2)

/-- Embedding of `EncryptedStream.Write`: fail with the lifecycle error when
closed, otherwise split the source into `≤ MaxChunkSize` chunks and emit one
encrypted record per chunk. -/
def EncryptedStream.Write (es : EncryptedStream) (rand : Nat → Bytes) (b : Bytes) :
    (Nat × Option StreamError) × EncryptedStream × Bytes :=
  if es.IsClosed = true then ((0, some .closedPipe), es, [])
  else
    let r := writeChunks rand 0 es.encoder (chunksOf es.maxChunkSize b)
    (r.1, { es with encoder := r.2.1 }, r.2.2)

/-- Repeatedly call `Read` with a caller buffer of `dstLen` bytes until the
wire and the decrypted window are both exhausted, concatenating the bytes
each call returns.  `fuel` bounds the number of calls. -/
def readAll (fuel : Nat) (es : EncryptedStream) (dstLen : Nat) (wire : Bytes) :
    Except StreamError Bytes :=
  match fuel with
  | 0 => if es.window = [] ∧ wire = [] then .ok [] else .error .outOfFuel
  | fuel + 1 =>
    if es.window = [] ∧ wire = [] then .ok []
    else
      match es.Read dstLen wire with
      | .error e => .error e
      | .ok (got, es', wire') =>
        match readAll fuel es' dstLen wire' with
        | .error e => .error e
        | .ok rest => .ok (got ++ rest)

/-- The nonces consumed by a run of sequential-mode `Encode` calls, one call
per plaintext: each successful call contributes the nonce it embedded in its
record (the first `NonceSize` bytes of the output); failed calls contribute
nothing and leave the encoder state unchanged. -/
def encodeSeq (e : Encoder) : List Bytes → List Bytes × Encoder
  | [] => ([], e)
  | pt :: rest =>
    match e.Encode [] pt with
    | (.ok record, e') =>
      let r := encodeSeq e' rest
      ((record.take e.cipher.nonceSize) :: r.1, r.2)
    | (.error _, e') => encodeSeq e' rest

/-- Structural well-formedness of a nonce buffer: correct length, genuine
bytes, and — for a responder-owned counter — the direction bit still set in
byte 0. -/
def NonceWF (n : Nat) (initiator : Bool) (nn : Bytes) : Prop :=
  nn.length = n ∧ (∀ x ∈ nn, x < 256) ∧ (initiator = false → 128 ≤ nn.headD 0)

/-- `Except.isOk` written out for the result of stream construction. -/
def constructionSucceeds (r : Except VerifyResult EncryptedStream) : Bool :=
  match r with
  | .ok _ => true
  | .error _ => false

/-- A concrete cipher for witnesses: 4-byte nonces, and encryption that
appends a single authenticator byte, so decryption is its exact inverse. -/
def testCipher : Cipher :=
  { nonceSize := 4
    maxOverhead := 1
    encrypt := fun pt _ => pt ++ [0]
    decrypt := fun ct _ => if ct.getLast? = some 0 then some ct.dropLast else none }

/-- A freshly constructed stream over a transport that implements
`io.Closer` (as every `net.Conn` does), used to exercise `Close`. -/
def sampleStream : EncryptedStream :=
  { isClosed := false
    hasCloser := true
    maxChunkSize := 65535
    encoder := NewEncoder testCipher true true
    decoder := NewDecoder testCipher true true false
    window := [] }

/-- Writer endpoint for the concrete round-trip run: initiator, sequential
nonces, chunk size 4. -/
def rtWriter : EncryptedStream :=
  { isClosed := false
    hasCloser := false
    maxChunkSize := 4
    encoder := NewEncoder testCipher true true
    decoder := NewDecoder testCipher true true false
    window := [] }

/-- Reader endpoint paired with `rtWriter`: responder, sequential nonces,
chunk size 4. -/
def rtReader : EncryptedStream :=
  { isClosed := false
    hasCloser := false
    maxChunkSize := 4
    encoder := NewEncoder testCipher false true
    decoder := NewDecoder testCipher false true false
    window := [] }

/-- A fixed random-byte source for witnesses. -/
def rtRand : Nat → Bytes := fun _ => [0, 0, 0, 0]

/-- A sequential responder decoder at its initial state, for witnesses. -/
def witDecoder : Decoder := NewDecoder testCipher false true false

/-- A sequential responder encoder whose nonce counter has reached
`maxNonce`, for the exhaustion witness. -/
def exhaustedEncoder : Encoder :=
  { cipher := testCipher
    initiator := false
    sequentialNonce := true
    nextNonce := List.replicate 4 255
    maxNonce := maxNonce 4 false }

lemma valLE_append (a b : Bytes) :
    valLE (a ++ b) = valLE a + 256 ^ a.length * valLE b := by
  induction a with
  | nil => simp [valLE]
  | cons x xs ih => simp [valLE, ih, pow_succ]; ring

lemma valLE_lt_pow (b : Bytes) (hb : ∀ x ∈ b, x < 256) :
    valLE b < 256 ^ b.length := by
  induction b with
  | nil => simp [valLE]
  | cons x xs ih =>
    have hx : x < 256 := hb x (by simp)
    have hxs := ih (fun y hy => hb y (by simp [hy]))
    simp only [valLE, List.length_cons, pow_succ]
    calc x + 256 * valLE xs < 256 + 256 * valLE xs := by omega
    _ = 256 * (valLE xs + 1) := by ring
    _ ≤ 256 * 256 ^ xs.length := by
        exact Nat.mul_le_mul_left 256 (by omega)
    _ = 256 ^ xs.length * 256 := by ring

lemma valBE_nil : valBE [] = 0 := rfl

lemma valBE_cons (x : Nat) (xs : Bytes) :
    valBE (x :: xs) = x * 256 ^ xs.length + valBE xs := by
  simp only [valBE, List.reverse_cons, valLE_append, List.length_reverse, valLE]
  ring

lemma valBE_lt_pow (b : Bytes) (hb : ∀ x ∈ b, x < 256) :
    valBE b < 256 ^ b.length := by
  have := valLE_lt_pow b.reverse (by simpa using hb)
  simpa [valBE] using this

lemma incrementNonceAux_length (xs : Bytes) :
    (incrementNonceAux xs).length = xs.length := by
  induction xs with
  | nil => rfl
  | cons x xs ih =>
    simp only [incrementNonceAux]
    split <;> simp [ih]

lemma incrementNonceAux_lt (xs : Bytes) (hb : ∀ x ∈ xs, x < 256) :
    ∀ y ∈ incrementNonceAux xs, y < 256 := by
  induction xs with
  | nil => simp [incrementNonceAux]
  | cons x xs ih =>
    intro y hy
    simp only [incrementNonceAux] at hy
    split at hy
    · rcases List.mem_cons.mp hy with rfl | h
      · exact Nat.mod_lt _ (by omega)
      · exact hb y (by simp [h])
    · rcases List.mem_cons.mp hy with rfl | h
      · exact Nat.mod_lt _ (by omega)
      · exact ih (fun z hz => hb z (by simp [hz])) y h

lemma incrementNonceAux_valLE (xs : Bytes) (hb : ∀ x ∈ xs, x < 256) :
    valLE (incrementNonceAux xs) = (valLE xs + 1) % 256 ^ xs.length := by
  induction xs with
  | nil => simp [incrementNonceAux, valLE]
  | cons x xs ih =>
    have hx : x < 256 := hb x (by simp)
    have hxs : ∀ y ∈ xs, y < 256 := fun y hy => hb y (by simp [hy])
    have hvxs := valLE_lt_pow xs hxs
    simp only [incrementNonceAux]
    by_cases hwrap : x = 255
    · subst hwrap
      rw [if_neg (by decide : ¬ (0 < (255 + 1) % 256))]
      simp only [valLE, ih hxs, List.length_cons, pow_succ]
      have h2 : ((255 : Nat) + 1) % 256 = 0 := by decide
      have h3 : (255 : Nat) + 256 * valLE xs + 1 = 256 * (valLE xs + 1) := by ring
      have h4 : (256 : Nat) ^ xs.length * 256 = 256 * 256 ^ xs.length := by ring
      rw [h2, h3, h4, Nat.mul_mod_mul_left]
      omega
    · have hlt : x + 1 < 256 := by omega
      have hmod : (x + 1) % 256 = x + 1 := Nat.mod_eq_of_lt hlt
      rw [hmod, if_pos (by omega)]
      simp only [valLE, List.length_cons, pow_succ]
      have h6 : 256 * (valLE xs + 1) ≤ 256 * 256 ^ xs.length :=
        Nat.mul_le_mul_left 256 (by omega)
      rw [Nat.mod_eq_of_lt (by omega : x + 256 * valLE xs + 1 < 256 ^ xs.length * 256)]
      ring

lemma incrementNonce_length (b : Bytes) :
    (incrementNonce b).length = b.length := by
  simp [incrementNonce, incrementNonceAux_length]

lemma incrementNonce_lt (b : Bytes) (hb : ∀ x ∈ b, x < 256) :
    ∀ y ∈ incrementNonce b, y < 256 := by
  intro y hy
  simp only [incrementNonce, List.mem_reverse] at hy
  exact incrementNonceAux_lt b.reverse (by simpa using hb) y hy

lemma valBE_incrementNonce (b : Bytes) (hb : ∀ x ∈ b, x < 256) :
    valBE (incrementNonce b) = (valBE b + 1) % 256 ^ b.length := by
  simp only [incrementNonce, valBE, List.reverse_reverse]
  rw [incrementNonceAux_valLE b.reverse (by simpa using hb)]
  simp

lemma bytesCompare_lt_iff :
    ∀ a b : Bytes, a.length = b.length → (∀ x ∈ a, x < 256) → (∀ x ∈ b, x < 256) →
      (bytesCompare a b = .lt ↔ valBE a < valBE b) := by
  intro a
  induction a with
  | nil =>
    intro b hl _ _
    have : b = [] := List.eq_nil_of_length_eq_zero hl.symm
    subst this
    simp [bytesCompare, valBE_nil]
  | cons x xs ih =>
    intro b hl ha hb
    match b with
    | [] => simp at hl
    | y :: ys =>
      have hlen : xs.length = ys.length := by simpa using hl
      have hxa : ∀ z ∈ xs, z < 256 := fun z hz => ha z (by simp [hz])
      have hyb : ∀ z ∈ ys, z < 256 := fun z hz => hb z (by simp [hz])
      have hvx := valBE_lt_pow xs hxa
      have hvy := valBE_lt_pow ys hyb
      rw [hlen] at hvx
      simp only [bytesCompare, valBE_cons, hlen]
      by_cases hxy : x < y
      · rw [if_pos hxy]
        constructor
        · intro _
          calc x * 256 ^ ys.length + valBE xs
              < x * 256 ^ ys.length + 256 ^ ys.length := by omega
          _ = (x + 1) * 256 ^ ys.length := by ring
          _ ≤ y * 256 ^ ys.length := Nat.mul_le_mul_right _ (by omega)
          _ ≤ y * 256 ^ ys.length + valBE ys := by omega
        · intro _; rfl
      · rw [if_neg hxy]
        by_cases hyx : y < x
        · rw [if_pos hyx]
          constructor
          · intro h; exact Ordering.noConfusion h
          · intro hv
            exfalso
            have : y * 256 ^ ys.length + valBE ys
                < x * 256 ^ ys.length + valBE xs := by
              calc y * 256 ^ ys.length + valBE ys
                  < y * 256 ^ ys.length + 256 ^ ys.length := by omega
              _ = (y + 1) * 256 ^ ys.length := by ring
              _ ≤ x * 256 ^ ys.length := Nat.mul_le_mul_right _ (by omega)
              _ ≤ x * 256 ^ ys.length + valBE xs := by omega
            omega
        · rw [if_neg hyx]
          have hxe : x = y := by omega
          subst hxe
          rw [ih ys hlen hxa hyb]
          omega

lemma initNonce_true (n : Nat) : initNonce n true = List.replicate n 0 := by
  simp [initNonce]

lemma initNonce_false_succ (m : Nat) :
    initNonce (m + 1) false = 128 :: List.replicate m 0 := by
  simp [initNonce, List.replicate_succ]

lemma maxNonce_true_succ (m : Nat) :
    maxNonce (m + 1) true = 127 :: List.replicate m 255 := by
  simp only [maxNonce, List.replicate_succ, List.headD_cons, List.set_cons_zero]
  simp only [show (255 : Nat) &&& 127 = 127 from by decide, if_true]

lemma maxNonce_false (n : Nat) : maxNonce n false = List.replicate n 255 := by
  simp [maxNonce]

lemma initNonce_length (n : Nat) (i : Bool) : (initNonce n i).length = n := by
  cases i
  · cases n with
    | zero => simp [initNonce]
    | succ m => simp [initNonce_false_succ]
  · simp [initNonce_true]

lemma initNonce_lt (n : Nat) (i : Bool) : ∀ x ∈ initNonce n i, x < 256 := by
  cases i
  · cases n with
    | zero => simp [initNonce]
    | succ m =>
      rw [initNonce_false_succ]
      intro x hx
      rcases List.mem_cons.mp hx with rfl | h
      · omega
      · have := List.eq_of_mem_replicate h; omega
  · rw [initNonce_true]
    intro x hx
    have := List.eq_of_mem_replicate hx; omega

lemma maxNonce_length (n : Nat) (i : Bool) : (maxNonce n i).length = n := by
  cases i
  · simp [maxNonce_false]
  · cases n with
    | zero => simp [maxNonce]
    | succ m => simp [maxNonce_true_succ]

lemma maxNonce_lt (n : Nat) (i : Bool) : ∀ x ∈ maxNonce n i, x < 256 := by
  cases i
  · rw [maxNonce_false]
    intro x hx
    have := List.eq_of_mem_replicate hx; omega
  · cases n with
    | zero => simp [maxNonce]
    | succ m =>
      rw [maxNonce_true_succ]
      intro x hx
      rcases List.mem_cons.mp hx with rfl | h
      · omega
      · have := List.eq_of_mem_replicate h; omega

lemma headD_eq_div (b : Bytes) (m : Nat) (hlen : b.length = m + 1)
    (hb : ∀ x ∈ b, x < 256) : b.headD 0 = valBE b / 256 ^ m := by
  match b with
  | [] => simp at hlen
  | x :: xs =>
    have hxs : xs.length = m := by simpa using hlen
    have hv : valBE xs < 256 ^ m := by
      have := valBE_lt_pow xs (fun z hz => hb z (by simp [hz]))
      rwa [hxs] at this
    have hK : 0 < 256 ^ m := Nat.pow_pos (by norm_num)
    rw [valBE_cons, hxs]
    simp only [List.headD_cons]
    rw [Nat.add_comm, Nat.mul_comm x (256 ^ m), Nat.add_mul_div_left _ _ hK,
      Nat.div_eq_of_lt hv]
    omega

lemma shiftr7_of_le127 (x : Nat) (h : x ≤ 127) : x >>> 7 = 0 := by
  rw [Nat.shiftRight_eq_div_pow]
  exact Nat.div_eq_of_lt (by norm_num; omega)

lemma shiftr7_of_ge128 (x : Nat) (h1 : 128 ≤ x) (h2 : x < 256) : x >>> 7 = 1 := by
  rw [Nat.shiftRight_eq_div_pow]
  norm_num
  omega

lemma and127_le (x : Nat) : x &&& 127 ≤ 127 := Nat.and_le_right

lemma or128_ge (x : Nat) : 128 ≤ x ||| 128 := by
  have h2 : (x ||| 128).testBit 7 = true := by
    rw [Nat.testBit_or]
    simp [show Nat.testBit 128 7 = true by decide]
  by_contra hlt
  push_neg at hlt
  have := Nat.testBit_lt_two_pow (x := x ||| 128) (i := 7) (by omega)
  rw [this] at h2
  exact Bool.noConfusion h2

lemma or128_lt (x : Nat) (h : x < 256) : x ||| 128 < 256 := by
  have := Nat.or_lt_two_pow (x := x) (y := 128) (n := 8) h (by norm_num)
  simpa using this

lemma guard_lt_of_initiator_head (m : Nat) (nn : Bytes) (hlen : nn.length = m + 1)
    (hlt : bytesCompare nn (maxNonce (m + 1) true) = .lt) : nn.headD 0 ≤ 127 := by
  match nn with
  | [] => simp at hlen
  | x :: xs =>
    rw [maxNonce_true_succ] at hlt
    simp only [bytesCompare] at hlt
    by_cases h1 : x < 127
    · simp only [List.headD_cons]; omega
    · rw [if_neg h1] at hlt
      by_cases h2 : 127 < x
      · rw [if_pos h2] at hlt
        exact Ordering.noConfusion hlt
      · simp only [List.headD_cons]; omega

lemma maxNonce_val_lt (n : Nat) (i : Bool) : valBE (maxNonce n i) < 256 ^ n := by
  have := valBE_lt_pow (maxNonce n i) (maxNonce_lt n i)
  rwa [maxNonce_length] at this

lemma guard_no_wrap (n : Nat) (i : Bool) (nn : Bytes) (hlen : nn.length = n)
    (hb : ∀ x ∈ nn, x < 256)
    (hlt : bytesCompare nn (maxNonce n i) = .lt) :
    valBE (incrementNonce nn) = valBE nn + 1 := by
  have hcmp := (bytesCompare_lt_iff nn (maxNonce n i)
    (by rw [hlen, maxNonce_length]) hb (maxNonce_lt n i)).mp hlt
  have hmax := maxNonce_val_lt n i
  have hsmall : valBE nn + 1 < 256 ^ n := by omega
  rw [valBE_incrementNonce nn hb, hlen, Nat.mod_eq_of_lt hsmall]

lemma NonceWF_initNonce (n : Nat) (i : Bool) (hn : i = false → 1 ≤ n) :
    NonceWF n i (initNonce n i) := by
  refine ⟨initNonce_length n i, initNonce_lt n i, ?_⟩
  intro hi
  subst hi
  obtain ⟨m, rfl⟩ := Nat.exists_eq_add_of_le (hn rfl)
  rw [Nat.add_comm, initNonce_false_succ]
  simp

lemma NonceWF_increment (n : Nat) (i : Bool) (nn : Bytes) (hWF : NonceWF n i nn)
    (hlt : bytesCompare nn (maxNonce n i) = .lt) :
    NonceWF n i (incrementNonce nn) := by
  obtain ⟨hlen, hb, hhead⟩ := hWF
  refine ⟨by rw [incrementNonce_length, hlen], incrementNonce_lt nn hb, ?_⟩
  intro hi
  subst hi
  match n, hlen with
  | 0, hlen =>
    have : nn = [] := List.eq_nil_of_length_eq_zero hlen
    subst this
    rw [maxNonce_false] at hlt
    simp [bytesCompare] at hlt
  | m + 1, hlen =>
    have hval := guard_no_wrap (m + 1) false nn hlen hb hlt
    have hlen' : (incrementNonce nn).length = m + 1 := by
      rw [incrementNonce_length, hlen]
    rw [headD_eq_div (incrementNonce nn) m hlen' (incrementNonce_lt nn hb), hval]
    have hd := headD_eq_div nn m hlen hb
    have h128 : 128 ≤ valBE nn / 256 ^ m := by rw [← hd]; exact hhead rfl
    calc 128 ≤ valBE nn / 256 ^ m := h128
    _ ≤ (valBE nn + 1) / 256 ^ m := Nat.div_le_div_right (by omega)

lemma seq_nonce_bit_initiator (n : Nat) (nn : Bytes) (hlen : nn.length = n)
    (hlt : bytesCompare nn (maxNonce n true) = .lt) (hn : 1 ≤ n) :
    (nn.headD 0) >>> 7 = 0 := by
  obtain ⟨m, rfl⟩ := Nat.exists_eq_add_of_le hn
  rw [Nat.add_comm] at hlt hlen
  exact shiftr7_of_le127 _ (guard_lt_of_initiator_head m nn hlen hlt)

lemma seq_nonce_bit_responder (n : Nat) (nn : Bytes) (hWF : NonceWF n false nn)
    (hn : 1 ≤ n) : (nn.headD 0) >>> 7 = 1 := by
  obtain ⟨hlen, hb, hhead⟩ := hWF
  have hne : nn ≠ [] := by
    intro h; subst h; simp at hlen; omega
  match nn, hne with
  | x :: xs, _ =>
    exact shiftr7_of_ge128 x (by simpa using hhead rfl) (hb x (by simp))

lemma headD_lt_256 (l : Bytes) (h : ∀ x ∈ l, x < 256) : l.headD 0 < 256 := by
  cases l with
  | nil => norm_num
  | cons x xs => exact h x (by simp)

lemma set0_lt (l : Bytes) (v : Nat) (hv : v < 256) (h : ∀ x ∈ l, x < 256) :
    ∀ y ∈ l.set 0 v, y < 256 := by
  intro y hy
  rcases List.mem_or_eq_of_mem_set hy with h1 | rfl
  · exact h y h1
  · exact hv
lemma Encode_seq_ok (c : Cipher) (i : Bool) (nn mx rnd pt : Bytes)
    (hlt : bytesCompare nn mx = .lt) :
    Encoder.Encode ⟨c, i, true, nn, mx⟩ rnd pt
      = (.ok (nn ++ c.encrypt pt nn), ⟨c, i, true, incrementNonce nn, mx⟩) := by
  simp [Encoder.Encode, hlt]

lemma Encode_seq_exhausted (c : Cipher) (i : Bool) (nn mx rnd pt : Bytes)
    (hge : bytesCompare nn mx ≠ .lt) :
    Encoder.Encode ⟨c, i, true, nn, mx⟩ rnd pt
      = (.error .errMaxNonce, ⟨c, i, true, nn, mx⟩) := by
  simp [Encoder.Encode, hge]

lemma Encode_random (c : Cipher) (i : Bool) (nn mx rnd pt : Bytes) :
    Encoder.Encode ⟨c, i, false, nn, mx⟩ rnd pt
      = (.ok
          ((if i = true then (rnd.take c.nonceSize).set 0 ((rnd.take c.nonceSize).headD 0 &&& 127)
            else (rnd.take c.nonceSize).set 0 ((rnd.take c.nonceSize).headD 0 ||| 128))
           ++ c.encrypt pt
            (if i = true then (rnd.take c.nonceSize).set 0 ((rnd.take c.nonceSize).headD 0 &&& 127)
             else (rnd.take c.nonceSize).set 0 ((rnd.take c.nonceSize).headD 0 ||| 128))),
         ⟨c, i, false, nn, mx⟩) := by
  cases i <;> simp [Encoder.Encode]

lemma Decode_ok (c : Cipher) (di seq : Bool) (nn ct pt : Bytes)
    (hsz : ¬ (ct.length ≤ c.nonceSize))
    (hbit : (ct.take c.nonceSize).headD 0 >>> 7 = (if di = true then 1 else 0))
    (hseqok : seq = true → ct.take c.nonceSize = nn)
    (hdec : c.decrypt (ct.drop c.nonceSize) (ct.take c.nonceSize) = some pt) :
    Decoder.Decode ⟨c, di, seq, false, nn⟩ ct
      = (.ok pt, ⟨c, di, seq, false, if seq = true then incrementNonce nn else nn⟩) := by
  cases di <;> cases seq <;> simp_all [Decoder.Decode]

lemma Decode_wrongInitiator (c : Cipher) (di seq : Bool) (nn ct : Bytes)
    (hsz : ¬ (ct.length ≤ c.nonceSize))
    (hbit : ¬ ((ct.take c.nonceSize).headD 0 >>> 7 = (if di = true then 1 else 0))) :
    Decoder.Decode ⟨c, di, seq, false, nn⟩ ct
      = (.error .wrongInitiator, ⟨c, di, seq, false, nn⟩) := by
  cases di <;> simp_all [Decoder.Decode]

lemma Decode_wrongSequential (c : Cipher) (di : Bool) (nn ct : Bytes)
    (hsz : ¬ (ct.length ≤ c.nonceSize))
    (hbit : (ct.take c.nonceSize).headD 0 >>> 7 = (if di = true then 1 else 0))
    (hne : ct.take c.nonceSize ≠ nn) :
    Decoder.Decode ⟨c, di, true, false, nn⟩ ct
      = (.error .wrongSequential, ⟨c, di, true, false, nn⟩) := by
  cases di <;> simp_all [Decoder.Decode]

lemma encode_decode_step_seq (c : Cipher) (i : Bool) (nn pt rnd rec : Bytes) (e' : Encoder)
    (hinv : ∀ p no, c.decrypt (c.encrypt p no) no = some p)
    (hlenc : ∀ p no, (c.encrypt p no).length ≤ p.length + c.maxOverhead)
    (hpos : ∀ p no, 0 < (c.encrypt p no).length)
    (hn : 1 ≤ c.nonceSize)
    (hWF : NonceWF c.nonceSize i nn)
    (henc : Encoder.Encode ⟨c, i, true, nn, maxNonce c.nonceSize i⟩ rnd pt = (.ok rec, e')) :
    e' = ⟨c, i, true, incrementNonce nn, maxNonce c.nonceSize i⟩
    ∧ NonceWF c.nonceSize i (incrementNonce nn)
    ∧ Decoder.Decode ⟨c, !i, true, false, nn⟩ rec
        = (.ok pt, ⟨c, !i, true, false, incrementNonce nn⟩)
    ∧ c.nonceSize < rec.length
    ∧ rec.length ≤ c.nonceSize + pt.length + c.maxOverhead := by
  rcases eq_or_ne (bytesCompare nn (maxNonce c.nonceSize i)) .lt with hlt | hge
  · rw [Encode_seq_ok _ _ _ _ _ _ hlt, Prod.mk.injEq, Except.ok.injEq] at henc
    obtain ⟨hrec, he'⟩ := henc
    obtain ⟨hnnlen, hnnlt, hhead⟩ := hWF
    have htake : rec.take c.nonceSize = nn := by
      rw [← hrec]; exact List.take_left' hnnlen
    have hdrop : rec.drop c.nonceSize = c.encrypt pt nn := by
      rw [← hrec]; exact List.drop_left' hnnlen
    have hlength : rec.length = c.nonceSize + (c.encrypt pt nn).length := by
      rw [← hrec]; simp [hnnlen]
    have hsz : ¬ (rec.length ≤ c.nonceSize) := by
      have := hpos pt nn; omega
    have hbit : (rec.take c.nonceSize).headD 0 >>> 7 = (if (!i) = true then 1 else 0) := by
      rw [htake]
      cases i
      · simpa using seq_nonce_bit_responder c.nonceSize nn ⟨hnnlen, hnnlt, hhead⟩ hn
      · simpa using seq_nonce_bit_initiator c.nonceSize nn hnnlen hlt hn
    have hdec : c.decrypt (rec.drop c.nonceSize) (rec.take c.nonceSize) = some pt := by
      rw [htake, hdrop]; exact hinv pt nn
    refine ⟨he'.symm, NonceWF_increment c.nonceSize i nn ⟨hnnlen, hnnlt, hhead⟩ hlt, ?_, ?_, ?_⟩
    · simpa using Decode_ok c (!i) true nn rec pt hsz hbit (fun _ => htake) hdec
    · have := hpos pt nn; omega
    · have := hlenc pt nn; omega
  · rw [Encode_seq_exhausted _ _ _ _ _ _ hge] at henc
    simp at henc

lemma encode_decode_step_rand (c : Cipher) (i : Bool) (nn nn' pt rnd rec : Bytes) (e' : Encoder)
    (hinv : ∀ p no, c.decrypt (c.encrypt p no) no = some p)
    (hlenc : ∀ p no, (c.encrypt p no).length ≤ p.length + c.maxOverhead)
    (hpos : ∀ p no, 0 < (c.encrypt p no).length)
    (hn : 1 ≤ c.nonceSize)
    (hrnd : rnd.length = c.nonceSize ∧ ∀ x ∈ rnd, x < 256)
    (henc : Encoder.Encode ⟨c, i, false, nn, maxNonce c.nonceSize i⟩ rnd pt = (.ok rec, e')) :
    e' = ⟨c, i, false, nn, maxNonce c.nonceSize i⟩
    ∧ Decoder.Decode ⟨c, !i, false, false, nn'⟩ rec
        = (.ok pt, ⟨c, !i, false, false, nn'⟩)
    ∧ c.nonceSize < rec.length
    ∧ rec.length ≤ c.nonceSize + pt.length + c.maxOverhead := by
  rw [Encode_random, Prod.mk.injEq, Except.ok.injEq] at henc
  obtain ⟨hrec, he'⟩ := henc
  have hn0len : (rnd.take c.nonceSize).length = c.nonceSize :=
    List.length_take_of_le (by omega)
  have hn0lt : ∀ x ∈ rnd.take c.nonceSize, x < 256 :=
    fun x hx => hrnd.2 x (List.mem_of_mem_take hx)
  have hn0ne : rnd.take c.nonceSize ≠ [] := by
    intro h
    rw [h] at hn0len
    simp at hn0len
    omega
  set nonce := (if i = true
      then (rnd.take c.nonceSize).set 0 ((rnd.take c.nonceSize).headD 0 &&& 127)
      else (rnd.take c.nonceSize).set 0 ((rnd.take c.nonceSize).headD 0 ||| 128)) with hnd
  have hlen1 : nonce.length = c.nonceSize := by
    rw [hnd]; cases i <;> simp [List.length_set, hn0len]
  have hhd : nonce.headD 0 = (if i = true
      then (rnd.take c.nonceSize).headD 0 &&& 127
      else (rnd.take c.nonceSize).headD 0 ||| 128) := by
    match hrt : rnd.take c.nonceSize, hn0ne with
    | x :: xs, _ =>
      rw [hnd, hrt]
      cases i <;> rfl
  have hbit : nonce.headD 0 >>> 7 = (if (!i) = true then 1 else 0) := by
    rw [hhd]
    cases i
    · simpa using shiftr7_of_ge128 _ (or128_ge _) (or128_lt _ (headD_lt_256 _ hn0lt))
    · simpa using shiftr7_of_le127 _ (and127_le _)
  have htake : rec.take c.nonceSize = nonce := by
    rw [← hrec]; exact List.take_left' hlen1
  have hdrop : rec.drop c.nonceSize = c.encrypt pt nonce := by
    rw [← hrec]; exact List.drop_left' hlen1
  have hlength : rec.length = c.nonceSize + (c.encrypt pt nonce).length := by
    rw [← hrec]; simp [hlen1]
  have hsz : ¬ (rec.length ≤ c.nonceSize) := by
    have := hpos pt nonce; omega
  have hbit' : (rec.take c.nonceSize).headD 0 >>> 7 = (if (!i) = true then 1 else 0) := by
    rw [htake]; exact hbit
  have hdec : c.decrypt (rec.drop c.nonceSize) (rec.take c.nonceSize) = some pt := by
    rw [htake, hdrop]; exact hinv pt nonce
  refine ⟨he'.symm, ?_, ?_, ?_⟩
  · simpa using Decode_ok c (!i) false nn' rec pt hsz hbit' (by simp) hdec
  · have := hpos pt nonce; omega
  · have := hlenc pt nonce; omega

lemma chunksOfAux_spec (mcs : Nat) (hmcs : 1 ≤ mcs) :
    ∀ fuel b, b.length ≤ fuel →
      (chunksOfAux mcs fuel b).flatten = b ∧
      ∀ ch ∈ chunksOfAux mcs fuel b, ch ≠ [] ∧ ch.length ≤ mcs := by
  intro fuel
  induction fuel with
  | zero =>
    intro b hb
    have : b = [] := List.eq_nil_of_length_eq_zero (by omega)
    subst this
    simp [chunksOfAux]
  | succ f ih =>
    intro b hb
    cases b with
    | nil => simp [chunksOfAux]
    | cons x xs =>
      have hdrop : ((x :: xs).drop mcs).length ≤ f := by
        rw [List.length_drop]
        simp only [List.length_cons] at hb ⊢
        omega
      obtain ⟨hjoin, hmem⟩ := ih ((x :: xs).drop mcs) hdrop
      constructor
      · simp only [chunksOfAux, List.flatten_cons]
        rw [hjoin]
        exact List.take_append_drop mcs (x :: xs)
      · intro ch hch
        simp only [chunksOfAux, List.mem_cons] at hch
        rcases hch with rfl | hch
        · constructor
          · simp [List.take_eq_nil_iff]
            omega
          · simp
        · exact hmem ch hch

lemma chunksOf_join (mcs : Nat) (hmcs : 1 ≤ mcs) (b : Bytes) :
    (chunksOf mcs b).flatten = b :=
  (chunksOfAux_spec mcs hmcs b.length b le_rfl).1

lemma chunksOf_mem (mcs : Nat) (hmcs : 1 ≤ mcs) (b : Bytes) :
    ∀ ch ∈ chunksOf mcs b, ch ≠ [] ∧ ch.length ≤ mcs :=
  (chunksOfAux_spec mcs hmcs b.length b le_rfl).2

lemma getUint32LE_putUint32LE (n : Nat) (h : n < 4294967296) :
    getUint32LE (putUint32LE n) = n := by
  simp only [getUint32LE, putUint32LE, List.getD_cons_zero, List.getD_cons_succ]
  omega

lemma putUint32LE_length (n : Nat) : (putUint32LE n).length = 4 := rfl

lemma writeVarBytes_ok (b frame : Bytes) (h : writeVarBytes b = .ok frame) :
    b.length ≤ 2147483647 ∧ frame = putUint32LE b.length ++ b := by
  unfold writeVarBytes at h
  by_cases h1 : 2147483647 < b.length
  · rw [if_pos h1] at h
    exact absurd h (by simp)
  · rw [if_neg h1] at h
    simp only [Except.ok.injEq] at h
    exact ⟨by omega, h.symm⟩

lemma readVarBytes_frame (bufLen : Nat) (record rest : Bytes)
    (hle : record.length ≤ bufLen) (hlt : record.length < 4294967296) :
    readVarBytes bufLen (putUint32LE record.length ++ (record ++ rest))
      = .ok (record, rest) := by
  have hlen4 : (putUint32LE record.length).length = 4 := rfl
  have htake4 : (putUint32LE record.length ++ (record ++ rest)).take 4
      = putUint32LE record.length := List.take_left' hlen4
  have hdrop4 : (putUint32LE record.length ++ (record ++ rest)).drop 4
      = record ++ rest := List.drop_left' hlen4
  have hwlen : ¬ ((putUint32LE record.length ++ (record ++ rest)).length < 4) := by
    simp [putUint32LE]
  unfold readVarBytes
  rw [if_neg hwlen, htake4, hdrop4, getUint32LE_putUint32LE record.length hlt]
  rw [if_neg (by omega), if_neg (by simp)]
  rw [List.take_left' rfl, List.drop_left' rfl]

lemma Read_serve (es : EncryptedStream) (dstLen : Nat) (wire : Bytes)
    (hcl : es.isClosed = false) (hw : es.window ≠ []) :
    es.Read dstLen wire
      = .ok (es.window.take dstLen, { es with window := es.window.drop dstLen }, wire) := by
  unfold EncryptedStream.Read EncryptedStream.IsClosed
  rw [if_neg (by simp [hcl]), if_neg hw]

lemma Read_record (es : EncryptedStream) (dstLen : Nat) (wire : Bytes)
    (record wire' pt : Bytes) (d' : Decoder)
    (hcl : es.isClosed = false) (hw : es.window = [])
    (hrv : readVarBytes
        (es.maxChunkSize + es.decoder.cipher.maxOverhead + es.decoder.cipher.nonceSize) wire
      = .ok (record, wire'))
    (hsize : ¬ (es.maxChunkSize + es.decoder.cipher.maxOverhead + es.decoder.cipher.nonceSize
        < record.length))
    (hdec : es.decoder.Decode record = (.ok pt, d')) :
    es.Read dstLen wire
      = .ok (pt.take dstLen, { es with decoder := d', window := pt.drop dstLen }, wire') := by
  unfold EncryptedStream.Read EncryptedStream.IsClosed
  rw [if_neg (by simp [hcl]), if_pos hw, hrv]
  simp only [if_neg hsize, hdec]

lemma writeChunks_readAll (c : Cipher) (i seq : Bool) (mcs D : Nat) (rand : Nat → Bytes)
    (hinv : ∀ p no, c.decrypt (c.encrypt p no) no = some p)
    (hlenc : ∀ p no, (c.encrypt p no).length ≤ p.length + c.maxOverhead)
    (hpos : ∀ p no, 0 < (c.encrypt p no).length)
    (hn : 1 ≤ c.nonceSize) (hmcs : 1 ≤ mcs) (hD : 1 ≤ D)
    (hrand : ∀ k, (rand k).length = c.nonceSize ∧ ∀ x ∈ rand k, x < 256) :
    ∀ fuel chs (k : Nat) (nn w : Bytes) (encB : Encoder) (hcB : Bool)
      (N : Nat) (e' : Encoder) (out : Bytes),
      (∀ ch ∈ chs, ch ≠ [] ∧ ch.length ≤ mcs) →
      NonceWF c.nonceSize i nn →
      writeChunks rand k ⟨c, i, seq, nn, maxNonce c.nonceSize i⟩ chs = ((N, none), e', out) →
      w.length + chs.flatten.length + 1 ≤ fuel →
      readAll fuel ⟨false, hcB, mcs, encB, ⟨c, !i, seq, false, nn⟩, w⟩ D out
        = .ok (w ++ chs.flatten) := by
  intro fuel
  induction fuel with
  | zero =>
    intro chs k nn w encB hcB N e' out hch hWF hwc hfuel
    omega
  | succ f ih =>
    intro chs k nn w encB hcB N e' out hch hWF hwc hfuel
    by_cases hw : w = []
    · subst hw
      cases chs with
      | nil =>
        simp only [writeChunks, Prod.mk.injEq] at hwc
        obtain ⟨⟨hN, _⟩, he', hout⟩ := hwc
        subst hout
        simp [readAll]
      | cons ch rest =>
        obtain ⟨hchne, hchlen⟩ := hch ch (by simp)
        rcases h1 : Encoder.Encode ⟨c, i, seq, nn, maxNonce c.nonceSize i⟩ (rand k) ch
          with ⟨res, e1⟩
        cases res with
        | error err =>
          simp only [writeChunks, h1, Prod.mk.injEq] at hwc
          exact absurd hwc.1.2 (by simp)
        | ok record =>
          rcases h2 : writeVarBytes record with herr | frame
          · simp only [writeChunks, h1, h2, Prod.mk.injEq] at hwc
            exact absurd hwc.1.2 (by simp)
          · rcases h3 : writeChunks rand (k + 1) e1 rest with ⟨⟨N1, err1⟩, e2, out1⟩
            simp only [writeChunks, h1, h2, h3, Prod.mk.injEq] at hwc
            obtain ⟨⟨hN, herr1⟩, he2, hout⟩ := hwc
            subst hout
            have hstep :
                e1 = ⟨c, i, seq, (if seq = true then incrementNonce nn else nn),
                  maxNonce c.nonceSize i⟩
                ∧ NonceWF c.nonceSize i (if seq = true then incrementNonce nn else nn)
                ∧ Decoder.Decode ⟨c, !i, seq, false, nn⟩ record
                    = (.ok ch,
                       ⟨c, !i, seq, false, (if seq = true then incrementNonce nn else nn)⟩)
                ∧ c.nonceSize < record.length
                ∧ record.length ≤ c.nonceSize + ch.length + c.maxOverhead := by
              cases seq
              · obtain ⟨ha, hb, hc', hd⟩ := encode_decode_step_rand c i nn nn ch (rand k)
                  record e1 hinv hlenc hpos hn (hrand k) h1
                exact ⟨by simpa using ha, by simpa using hWF, by simpa using hb, hc', hd⟩
              · obtain ⟨ha, hb, hc', hd, he⟩ := encode_decode_step_seq c i nn ch (rand k)
                  record e1 hinv hlenc hpos hn hWF h1
                exact ⟨by simpa using ha, by simpa using hb, by simpa using hc', hd, he⟩
            obtain ⟨he1, hWF1, hdecrec, hszlo, hszhi⟩ := hstep
            obtain ⟨hlenrec, hframe⟩ := writeVarBytes_ok record frame h2
            subst hframe
            subst herr1
            subst he1
            have hrv : readVarBytes (mcs + c.maxOverhead + c.nonceSize)
                ((putUint32LE record.length ++ record) ++ out1) = .ok (record, out1) := by
              rw [List.append_assoc]
              exact readVarBytes_frame _ record out1 (by omega) (by omega)
            have hresult := ih rest (k + 1)
              (if seq = true then incrementNonce nn else nn) (ch.drop D) encB hcB N1 e2 out1
              (fun ch' hch' => hch ch' (by simp [hch'])) hWF1 h3
              (by
                simp only [List.flatten_cons, List.length_append, List.length_nil,
                  List.length_drop] at hfuel ⊢
                have hchpos : 1 ≤ ch.length := List.length_pos.mpr hchne
                omega)
            simp only [readAll]
            rw [if_neg (by simp [putUint32LE])]
            rw [Read_record _ D _ record out1 ch
              ⟨c, !i, seq, false, (if seq = true then incrementNonce nn else nn)⟩
              rfl rfl hrv
              (by show ¬ (mcs + c.maxOverhead + c.nonceSize < record.length); omega) hdecrec]
            simp only []
            rw [hresult]
            simp only [List.flatten_cons, List.nil_append, Except.ok.injEq]
            rw [← List.append_assoc, List.take_append_drop]
    · simp only [readAll]
      rw [if_neg (by simp [hw])]
      rw [Read_serve _ D out rfl hw]
      have hwlen : 1 ≤ w.length := List.length_pos.mpr hw
      have hresult := ih chs k nn (w.drop D) encB hcB N e' out hch hWF hwc
        (by simp only [List.length_drop]; omega)
      simp only []
      rw [hresult]
      simp only [Except.ok.injEq]
      rw [← List.append_assoc, List.take_append_drop]

lemma Write_open (es : EncryptedStream) (rand : Nat → Bytes) (b : Bytes)
    (hcl : es.isClosed = false) :
    es.Write rand b
      = ((writeChunks rand 0 es.encoder (chunksOf es.maxChunkSize b)).1,
         { es with encoder := (writeChunks rand 0 es.encoder (chunksOf es.maxChunkSize b)).2.1 },
         (writeChunks rand 0 es.encoder (chunksOf es.maxChunkSize b)).2.2) := by
  unfold EncryptedStream.Write EncryptedStream.IsClosed
  rw [if_neg (by simp [hcl])]

lemma NewEncryptedStream_ok (c : Cipher) (hc i seq dv : Bool) (m : Nat) (hm : 1 ≤ m) :
    NewEncryptedStream hc (some ⟨some c, (m : Int), i, seq, dv⟩) =
      .ok { isClosed := false, hasCloser := hc, maxChunkSize := m,
            encoder := NewEncoder c i seq, decoder := NewDecoder c i seq dv,
            window := [] } := by
  have hm0 : (m : Int) ≠ 0 := Int.natCast_ne_zero.mpr (by omega)
  have hov : ¬ ((c.maxOverhead : Int) < 0) := Int.not_lt.mpr (Int.natCast_nonneg _)
  have hns : ¬ ((c.nonceSize : Int) < 0) := Int.not_lt.mpr (Int.natCast_nonneg _)
  have hch : ¬ ((m : Int) ≤ 0) := Int.not_le.mpr (by exact_mod_cast hm)
  simp only [NewEncryptedStream, MergeConfig, DefaultConfig, Config.Verify,
    if_pos hm0, if_neg hov, if_neg hns, if_neg hch, Bool.or_false, Except.ok.injEq]
  simp [Int.toNat_natCast]

/-- C1: for every plaintext `p` and every paired configuration (same cipher,
opposite `initiator`, same `sequentialNonce`, nonce verification enabled),
writing `p` on one endpoint and repeatedly reading on the paired endpoint
reproduces exactly `p`, each `≤ MaxChunkSize` chunk encoded by the Encoder
being decoded to the original chunk by the paired Decoder — under the cipher
contract (decrypt is the exact inverse of encrypt for a matching nonce,
ciphertext length is positive and at most plaintext length plus
`MaxOverhead`). -/
theorem c1_stream_roundtrip
    (c : Cipher) (i seq : Bool) (mcs D : Nat) (p : Bytes) (rand : Nat → Bytes)
    (hcA hcB : Bool) (esA esB : EncryptedStream)
    (hinv : ∀ pt nonce, c.decrypt (c.encrypt pt nonce) nonce = some pt)
    (hlenc : ∀ pt nonce, (c.encrypt pt nonce).length ≤ pt.length + c.maxOverhead)
    (hpos : ∀ pt nonce, 0 < (c.encrypt pt nonce).length)
    (hn : 1 ≤ c.nonceSize) (hmcs : 1 ≤ mcs) (hD : 1 ≤ D)
    (hrand : ∀ k, (rand k).length = c.nonceSize ∧ ∀ x ∈ rand k, x < 256)
    (hA : NewEncryptedStream hcA (some ⟨some c, (mcs : Int), i, seq, false⟩) = .ok esA)
    (hB : NewEncryptedStream hcB (some ⟨some c, (mcs : Int), !i, seq, false⟩) = .ok esB)
    (hwrite : (esA.Write rand p).1.2 = none) :
    readAll (p.length + 1) esB D (esA.Write rand p).2.2 = .ok p := by
  rw [NewEncryptedStream_ok c hcA i seq false mcs hmcs, Except.ok.injEq] at hA
  rw [NewEncryptedStream_ok c hcB (!i) seq false mcs hmcs, Except.ok.injEq] at hB
  subst hA
  subst hB
  have hwrite' : (writeChunks rand 0 (NewEncoder c i seq) (chunksOf mcs p)).1.2 = none :=
    hwrite
  rcases h3 : writeChunks rand 0 (NewEncoder c i seq) (chunksOf mcs p)
    with ⟨⟨N, err⟩, e', out⟩
  rw [h3] at hwrite'
  simp only [] at hwrite'
  subst hwrite'
  show readAll (p.length + 1)
    { isClosed := false, hasCloser := hcB, maxChunkSize := mcs,
      encoder := NewEncoder c (!i) seq, decoder := NewDecoder c (!i) seq false,
      window := [] } D
    (writeChunks rand 0 (NewEncoder c i seq) (chunksOf mcs p)).2.2 = .ok p
  rw [h3]
  have h3' : writeChunks rand 0
      ⟨c, i, seq, initNonce c.nonceSize i, maxNonce c.nonceSize i⟩ (chunksOf mcs p)
      = ((N, none), e', out) := h3
  have hmain := writeChunks_readAll c i seq mcs D rand hinv hlenc hpos hn hmcs hD hrand
    (p.length + 1) (chunksOf mcs p) 0 (initNonce c.nonceSize i) [] (NewEncoder c (!i) seq)
    hcB N e' out (chunksOf_mem mcs hmcs p) (NonceWF_initNonce c.nonceSize i (fun _ => hn))
    h3' (by simp [chunksOf_join mcs hmcs p])
  rw [List.nil_append, chunksOf_join mcs hmcs p] at hmain
  have hdec : NewDecoder c (!i) seq false
      = (⟨c, !i, seq, false, initNonce c.nonceSize i⟩ : Decoder) := by
    simp [NewDecoder]
  rw [hdec]
  exact hmain

/-- Witness for C1: a concrete initiator endpoint writes `[1, 2, 3]` with
chunk size 4 and the paired responder endpoint reads exactly `[1, 2, 3]`
back. -/
theorem c1_stream_roundtrip_witness :
    readAll 4 rtReader 1 ((rtWriter.Write rtRand [1, 2, 3]).2.2) = .ok [1, 2, 3] :=
  c1_stream_roundtrip testCipher true true 4 1 [1, 2, 3] rtRand false false
    rtWriter rtReader
    (fun pt nonce => by simp [testCipher, List.getLast?_concat, List.dropLast_concat])
    (fun pt nonce => by simp [testCipher])
    (fun pt nonce => by simp [testCipher])
    (by decide) (by norm_num) (by norm_num)
    (fun k => ⟨rfl, by intro x hx; simp [rtRand] at hx; omega⟩)
    rfl rfl (by decide)

lemma encodeSeq_facts (c : Cipher) (i : Bool) :
    ∀ (pts : List Bytes) (nn : Bytes), nn.length = c.nonceSize → (∀ x ∈ nn, x < 256) →
      (∀ m ∈ (encodeSeq ⟨c, i, true, nn, maxNonce c.nonceSize i⟩ pts).1,
          m.length = c.nonceSize ∧ (∀ x ∈ m, x < 256) ∧ valBE nn ≤ valBE m)
      ∧ List.Pairwise (fun a b => valBE a < valBE b)
          (encodeSeq ⟨c, i, true, nn, maxNonce c.nonceSize i⟩ pts).1 := by
  intro pts
  induction pts with
  | nil =>
    intro nn hlen hlt
    simp [encodeSeq]
  | cons pt rest ih =>
    intro nn hlen hlt
    rcases eq_or_ne (bytesCompare nn (maxNonce c.nonceSize i)) .lt with hguard | hguard
    · have hval : valBE (incrementNonce nn) = valBE nn + 1 :=
        guard_no_wrap c.nonceSize i nn hlen hlt hguard
      have hlen' : (incrementNonce nn).length = c.nonceSize := by
        rw [incrementNonce_length, hlen]
      have hlt' := incrementNonce_lt nn hlt
      obtain ⟨ihmem, ihpw⟩ := ih (incrementNonce nn) hlen' hlt'
      have htake : (nn ++ c.encrypt pt nn).take c.nonceSize = nn := List.take_left' hlen
      simp only [encodeSeq, Encode_seq_ok c i nn (maxNonce c.nonceSize i) [] pt hguard]
      simp only [htake]
      constructor
      · intro m hm
        rcases List.mem_cons.mp hm with rfl | hm'
        · exact ⟨hlen, hlt, le_rfl⟩
        · obtain ⟨h1, h2, h3⟩ := ihmem m hm'
          exact ⟨h1, h2, by omega⟩
      · rw [List.pairwise_cons]
        refine ⟨?_, ihpw⟩
        intro m hm
        have := (ihmem m hm).2.2
        omega
    · simp only [encodeSeq,
        Encode_seq_exhausted c i nn (maxNonce c.nonceSize i) [] pt hguard]
      exact ih nn hlen hlt

/-- C2: with sequential nonces enabled, the nonces consumed by successive
successful `Encode` calls of one Encoder are pairwise strictly increasing in
big-endian lexicographic order and never repeat; and once `nextNonce` has
reached `maxNonce`, `Encode` fails with `ErrMaxNonce` and leaves the encoder
state unchanged instead of reusing or wrapping a nonce. -/
theorem c2_sequential_nonces (c : Cipher) (i : Bool) (pts : List Bytes) :
    List.Pairwise (fun a b => bytesCompare a b = .lt ∧ a ≠ b)
      (encodeSeq (NewEncoder c i true) pts).1
    ∧ (∀ (e : Encoder) (rnd pt : Bytes), e.sequentialNonce = true →
        bytesCompare e.nextNonce e.maxNonce ≠ .lt →
        e.Encode rnd pt = (.error .errMaxNonce, e)) := by
  constructor
  · obtain ⟨hmem, hpw⟩ := encodeSeq_facts c i pts (initNonce c.nonceSize i)
      (initNonce_length _ _) (initNonce_lt _ _)
    refine List.Pairwise.imp_of_mem ?_ hpw
    intro a b ha hb hab
    obtain ⟨hal, halt, _⟩ := hmem a ha
    obtain ⟨hbl, hblt, _⟩ := hmem b hb
    refine ⟨?_, ?_⟩
    · exact (bytesCompare_lt_iff a b (by rw [hal, hbl]) halt hblt).mpr hab
    · intro h
      rw [h] at hab
      omega
  · intro e rnd pt hseq hge
    obtain ⟨ec, ei, es, en, em⟩ := e
    simp only at hseq
    subst hseq
    exact Encode_seq_exhausted ec ei en em rnd pt (by simpa using hge)

/-- Witness for C2: two concrete sequential encodes consume the strictly
increasing nonces `80 00 00 00`, `80 00 00 01`, and an encoder at `maxNonce`
fails with `ErrMaxNonce` leaving its state unchanged. -/
theorem c2_sequential_nonces_witness :
    (encodeSeq (NewEncoder testCipher false true) [[1], [2]]).1
      = [[128, 0, 0, 0], [128, 0, 0, 1]]
    ∧ exhaustedEncoder.Encode [] [5] = (.error .errMaxNonce, exhaustedEncoder) :=
  ⟨by decide,
   (c2_sequential_nonces testCipher false [[1], [2]]).2 exhaustedEncoder [] [5] rfl
     (by decide)⟩

lemma Decode_ok_nonce (c : Cipher) (di : Bool) (nn r pt : Bytes) (d' : Decoder)
    (h : Decoder.Decode ⟨c, di, true, false, nn⟩ r = (.ok pt, d')) :
    r.take c.nonceSize = nn
    ∧ d' = ⟨c, di, true, false, incrementNonce nn⟩
    ∧ c.decrypt (r.drop c.nonceSize) (r.take c.nonceSize) = some pt
    ∧ c.nonceSize < r.length
    ∧ (r.take c.nonceSize).headD 0 >>> 7 = (if di = true then 1 else 0) := by
  simp only [Decoder.Decode] at h
  split_ifs at h with h1 h2 h3 h4 <;> try simp at h
  have hbit : (r.take c.nonceSize).headD 0 >>> 7 = (if di = true then 1 else 0) := by
    cases di
    · rw [if_neg (by simp)]
      by_contra hb
      exact h3 ⟨by simp, by simp, hb⟩
    · rw [if_pos rfl]
      by_contra hb
      exact h2 ⟨by simp, by simp, hb⟩
  rcases hdec : c.decrypt (r.drop c.nonceSize) (r.take c.nonceSize) with _ | pt2
  · rw [hdec] at h; simp at h
  · rw [hdec] at h
    simp only [Prod.mk.injEq, Except.ok.injEq] at h
    obtain ⟨hpt, hd'⟩ := h
    subst hpt
    refine ⟨?_, hd'.symm, rfl, by omega, hbit⟩
    by_contra hne
    apply h4
    exact ⟨by simp, by simp, hne⟩

lemma incrementNonce_ne (nn : Bytes) (hlen : 1 ≤ nn.length) (hb : ∀ x ∈ nn, x < 256) :
    incrementNonce nn ≠ nn := by
  intro heq
  have hv := valBE_incrementNonce nn hb
  rw [heq] at hv
  have hbound := valBE_lt_pow nn hb
  have hM : 256 ≤ 256 ^ nn.length := by
    calc (256 : Nat) = 256 ^ 1 := by norm_num
    _ ≤ 256 ^ nn.length := Nat.pow_le_pow_right (by norm_num) hlen
  rcases Nat.lt_or_ge (valBE nn + 1) (256 ^ nn.length) with hc | hc
  · rw [Nat.mod_eq_of_lt hc] at hv; omega
  · have hceq : valBE nn + 1 = 256 ^ nn.length := by omega
    rw [hceq, Nat.mod_self] at hv
    omega

/-- C3: a sequential-mode Decoder with verification enabled accepts a record
only when its nonce is byte-for-byte equal to the expected `nextNonce`; a
record whose nonce differs (while passing the size and direction checks)
fails with `ErrWrongNonceSequential`; and in particular replaying a record
that was just accepted fails with `ErrWrongNonceSequential`, covering the
duplicate, out-of-order and skipped-record scenarios. -/
theorem c3_sequential_verification (c : Cipher) (di : Bool) (nn r pt : Bytes) (d' : Decoder) :
    (Decoder.Decode ⟨c, di, true, false, nn⟩ r = (.ok pt, d') →
       r.take c.nonceSize = nn)
    ∧ (c.nonceSize < r.length →
       (r.take c.nonceSize).headD 0 >>> 7 = (if di = true then 1 else 0) →
       r.take c.nonceSize ≠ nn →
       Decoder.Decode ⟨c, di, true, false, nn⟩ r
         = (.error .wrongSequential, ⟨c, di, true, false, nn⟩))
    ∧ (1 ≤ c.nonceSize → (∀ x ∈ nn, x < 256) → nn.length = c.nonceSize →
       Decoder.Decode ⟨c, di, true, false, nn⟩ r = (.ok pt, d') →
       d'.Decode r = (.error .wrongSequential, d')) := by
  refine ⟨?_, ?_, ?_⟩
  · intro h
    exact (Decode_ok_nonce c di nn r pt d' h).1
  · intro hsz hbit hne
    exact Decode_wrongSequential c di nn r (by omega) hbit hne
  · intro hn hb hlen h
    obtain ⟨htake, hd', _, hsz, hbit⟩ := Decode_ok_nonce c di nn r pt d' h
    subst hd'
    refine Decode_wrongSequential c di (incrementNonce nn) r (by omega) hbit ?_
    rw [htake]
    intro heq
    exact incrementNonce_ne nn (by omega) hb heq.symm

/-- Witness for C3: the concrete responder decoder rejects a record whose
nonce `01 00 00 00` differs from the expected `00 00 00 00` with
`ErrWrongNonceSequential`, and replaying the record it just accepted is
rejected the same way. -/
theorem c3_sequential_verification_witness :
    Decoder.Decode witDecoder [1, 0, 0, 0, 9, 0] = (.error .wrongSequential, witDecoder)
    ∧ Decoder.Decode ⟨testCipher, false, true, false, [0, 0, 0, 1]⟩ [0, 0, 0, 0, 9, 0]
        = (.error .wrongSequential, ⟨testCipher, false, true, false, [0, 0, 0, 1]⟩) :=
  ⟨(c3_sequential_verification testCipher false [0, 0, 0, 0] [1, 0, 0, 0, 9, 0] [9]
      witDecoder).2.1 (by decide) (by decide) (by decide),
   (c3_sequential_verification testCipher false [0, 0, 0, 0] [0, 0, 0, 0, 9, 0] [9]
      ⟨testCipher, false, true, false, [0, 0, 0, 1]⟩).2.2 (by decide) (by decide) (by decide)
      rfl⟩

lemma Decode_invalidSize (d : Decoder) (ct : Bytes) (h : ct.length ≤ d.cipher.nonceSize) :
    d.Decode ct = (.error .invalidSize, d) := by
  unfold Decoder.Decode
  rw [if_pos h]

lemma Encode_rejected_same_direction (c : Cipher) (i seq seq' : Bool)
    (nn nn' rnd pt rec : Bytes) (e' : Encoder)
    (hn : 1 ≤ c.nonceSize) (hWF : NonceWF c.nonceSize i nn)
    (hrndlen : rnd.length = c.nonceSize)
    (henc : Encoder.Encode ⟨c, i, seq, nn, maxNonce c.nonceSize i⟩ rnd pt = (.ok rec, e')) :
    (∀ (pt' : Bytes) (dd : Decoder), Decoder.Decode ⟨c, i, seq', false, nn'⟩ rec ≠ (.ok pt', dd))
    ∧ (c.nonceSize < rec.length →
        Decoder.Decode ⟨c, i, seq', false, nn'⟩ rec
          = (.error .wrongInitiator, ⟨c, i, seq', false, nn'⟩)) := by
  obtain ⟨hnnlen, hnnlt, hhead⟩ := hWF
  have hbit : ¬ ((rec.take c.nonceSize).headD 0 >>> 7 = (if i = true then 1 else 0)) := by
    cases seq
    · rw [Encode_random, Prod.mk.injEq, Except.ok.injEq] at henc
      obtain ⟨hrec, _⟩ := henc
      have hn0len : (rnd.take c.nonceSize).length = c.nonceSize :=
        List.length_take_of_le (by omega)
      have hn0ne : rnd.take c.nonceSize ≠ [] := by
        intro h
        rw [h] at hn0len
        simp at hn0len
        omega
      cases i
      · set v := (rnd.take c.nonceSize).headD 0 ||| 128 with hv
        have hlen1 : ((rnd.take c.nonceSize).set 0 v).length = c.nonceSize := by
          rw [List.length_set, hn0len]
        have htake : rec.take c.nonceSize = (rnd.take c.nonceSize).set 0 v := by
          rw [if_neg (by simp : ¬ (false = true))] at hrec
          rw [← hrec]
          exact List.take_left' hlen1
        have hhd : ((rnd.take c.nonceSize).set 0 v).headD 0 = v := by
          match hrt : rnd.take c.nonceSize, hn0ne with
          | x :: xs, _ => rfl
        rw [htake, hhd, if_neg (by simp)]
        have h128 : 128 ≤ v := or128_ge _
        have : 1 ≤ v >>> 7 := by
          rw [Nat.shiftRight_eq_div_pow]
          have := Nat.div_le_div_right (c := 128) h128
          simpa using this
        omega
      · set v := (rnd.take c.nonceSize).headD 0 &&& 127 with hv
        have hlen1 : ((rnd.take c.nonceSize).set 0 v).length = c.nonceSize := by
          rw [List.length_set, hn0len]
        have htake : rec.take c.nonceSize = (rnd.take c.nonceSize).set 0 v := by
          rw [if_pos rfl] at hrec
          rw [← hrec]
          exact List.take_left' hlen1
        have hhd : ((rnd.take c.nonceSize).set 0 v).headD 0 = v := by
          match hrt : rnd.take c.nonceSize, hn0ne with
          | x :: xs, _ => rfl
        rw [htake, hhd, if_pos rfl, shiftr7_of_le127 v (and127_le _)]
        omega
    · rcases eq_or_ne (bytesCompare nn (maxNonce c.nonceSize i)) .lt with hlt | hge
      · rw [Encode_seq_ok _ _ _ _ _ _ hlt, Prod.mk.injEq, Except.ok.injEq] at henc
        obtain ⟨hrec, _⟩ := henc
        have htake : rec.take c.nonceSize = nn := by
          rw [← hrec]; exact List.take_left' hnnlen
        rw [htake]
        cases i
        · rw [if_neg (by simp),
            seq_nonce_bit_responder c.nonceSize nn ⟨hnnlen, hnnlt, hhead⟩ hn]
          omega
        · rw [if_pos rfl, seq_nonce_bit_initiator c.nonceSize nn hnnlen hlt hn]
          omega
      · rw [Encode_seq_exhausted _ _ _ _ _ _ hge] at henc
        simp at henc
  constructor
  · intro pt' dd hok
    by_cases hsz : rec.length ≤ c.nonceSize
    · rw [Decode_invalidSize _ _ hsz] at hok
      simp at hok
    · rw [Decode_wrongInitiator c i seq' nn' rec hsz hbit] at hok
      simp at hok
  · intro hsz
    exact Decode_wrongInitiator c i seq' nn' rec (by omega) hbit

/-- C4: with verification enabled, an initiator-configured Decoder fails with
`ErrWrongNonceInitiator` whenever the top bit of nonce byte 0 is 0 and a
responder-configured Decoder fails whenever that bit is 1; consequently a
record produced by an initiator-configured Encoder is never accepted by any
initiator-configured Decoder (and with a well-sized record fails exactly with
`ErrWrongNonceInitiator`), and symmetrically for responder-configured
Encoders and Decoders. -/
theorem c4_direction_defense (c : Cipher) (seq : Bool) (nn r : Bytes) :
    (∀ (nn2 : Bytes), 1 ≤ c.nonceSize → c.nonceSize < r.length → (r.headD 0) >>> 7 = 0 →
      Decoder.Decode ⟨c, true, seq, false, nn2⟩ r
        = (.error .wrongInitiator, ⟨c, true, seq, false, nn2⟩))
    ∧ (∀ (nn2 : Bytes), 1 ≤ c.nonceSize → c.nonceSize < r.length → (r.headD 0) >>> 7 = 1 →
      Decoder.Decode ⟨c, false, seq, false, nn2⟩ r
        = (.error .wrongInitiator, ⟨c, false, seq, false, nn2⟩))
    ∧ (∀ (i : Bool) (seq' : Bool) (nn' rnd pt rec : Bytes) (e' : Encoder),
        1 ≤ c.nonceSize → NonceWF c.nonceSize i nn → rnd.length = c.nonceSize →
        Encoder.Encode ⟨c, i, seq, nn, maxNonce c.nonceSize i⟩ rnd pt = (.ok rec, e') →
        (∀ (pt' : Bytes) (dd : Decoder),
          Decoder.Decode ⟨c, i, seq', false, nn'⟩ rec ≠ (.ok pt', dd))) := by
  refine ⟨?_, ?_, ?_⟩
  · intro nn2 hn hsz hbit
    have hne : r ≠ [] := by
      intro h; subst h; simp at hsz
    refine Decode_wrongInitiator c true seq nn2 r (by omega) ?_
    have hht : (r.take c.nonceSize).headD 0 = r.headD 0 := by
      match r, hne with
      | x :: xs, _ =>
        match c.nonceSize, hn with
        | m + 1, _ => rfl
    intro hcontr
    rw [if_pos rfl, hht, hbit] at hcontr
    exact absurd hcontr (by decide)
  · intro nn2 hn hsz hbit
    have hne : r ≠ [] := by
      intro h; subst h; simp at hsz
    refine Decode_wrongInitiator c false seq nn2 r (by omega) ?_
    have hht : (r.take c.nonceSize).headD 0 = r.headD 0 := by
      match r, hne with
      | x :: xs, _ =>
        match c.nonceSize, hn with
        | m + 1, _ => rfl
    intro hcontr
    rw [if_neg (by simp : ¬ (false = true)), hht, hbit] at hcontr
    exact absurd hcontr (by decide)
  · intro i seq' nn' rnd pt rec e' hn hWF hrndlen henc
    exact (Encode_rejected_same_direction c i seq seq' nn nn' rnd pt rec e'
      hn hWF hrndlen henc).1

/-- Witness for C4: an initiator decoder rejects a record with direction bit
0, a responder decoder rejects a record with direction bit 1, and a record
freshly produced by an initiator encoder is not accepted by an initiator
decoder. -/
theorem c4_direction_defense_witness :
    Decoder.Decode ⟨testCipher, true, true, false, [0, 0, 0, 0]⟩ [0, 0, 0, 0, 9, 0]
      = (.error .wrongInitiator, ⟨testCipher, true, true, false, [0, 0, 0, 0]⟩)
    ∧ Decoder.Decode ⟨testCipher, false, true, false, [0, 0, 0, 0]⟩ [128, 0, 0, 0, 9, 0]
      = (.error .wrongInitiator, ⟨testCipher, false, true, false, [0, 0, 0, 0]⟩)
    ∧ Decoder.Decode ⟨testCipher, true, true, false, [0, 0, 0, 0]⟩ [0, 0, 0, 0, 9, 0]
      ≠ (.ok [9], witDecoder) :=
  ⟨(c4_direction_defense testCipher true [0, 0, 0, 0] [0, 0, 0, 0, 9, 0]).1
     [0, 0, 0, 0] (by decide) (by decide) (by decide),
   (c4_direction_defense testCipher true [0, 0, 0, 0] [128, 0, 0, 0, 9, 0]).2.1
     [0, 0, 0, 0] (by decide) (by decide) (by decide),
   (c4_direction_defense testCipher true [0, 0, 0, 0] [0, 0, 0, 0, 9, 0]).2.2
     true true [0, 0, 0, 0] [0, 0, 0, 0] [9] [0, 0, 0, 0, 9, 0]
     ⟨testCipher, true, true, [0, 0, 0, 1], maxNonce 4 true⟩
     (by decide) ⟨by decide, by decide, by decide⟩ (by decide) rfl [9] witDecoder⟩

/-- C5 (code bug): for a stream whose transport implements `io.Closer`,
`Close()` returns `stream.Close()` before the line that sets `isClosed`, so
the first call leaves `IsClosed() = false`, and a second call is not a no-op:
it forwards to the transport again and surfaces whatever that second
underlying close returns. -/
theorem c5_close_not_idempotent_with_closer :
    (sampleStream.Close (.ok ())).1 = .ok ()
    ∧ ((sampleStream.Close (.ok ())).2).IsClosed = false
    ∧ (((sampleStream.Close (.ok ())).2).Close (.error ())).1 = .error () :=
  ⟨rfl, rfl, rfl⟩

/-- C6 (code bug): after `Close()` has returned on a closer-backed stream the
closed flag is still unset, so a subsequent `Read` does not fail with
`io.ErrClosedPipe` (it reaches the transport and reports its end-of-stream)
and a subsequent `Write` happily encrypts and emits a full record. -/
theorem c6_read_write_after_close_not_gated :
    ((sampleStream.Close (.ok ())).2).Read 10 [] = .error .eof
    ∧ (((sampleStream.Close (.ok ())).2).Write rtRand [5]).1 = (1, none) :=
  ⟨rfl, by decide⟩

/-- Counterexample to C7: constructing a stream with `MaxChunkSize = 0` and a
valid cipher succeeds — `MergeConfig` treats 0 as "not set" and substitutes
the default 65535 — instead of failing with a configuration error. -/
theorem c7_counterexample_zero_chunk_succeeds :
    constructionSucceeds
      (NewEncryptedStream false (some ⟨some testCipher, 0, false, false, false⟩)) = true :=
  rfl

/-- C7 (amended): a caller `MaxChunkSize` of 0 is replaced by the default
65535 during `MergeConfig`, so construction succeeds for every valid cipher;
the chunk-size configuration error is returned only when the merged value is
non-positive, i.e. for a negative caller value. -/
theorem c7_amended_zero_chunk_size (c : Cipher) (i s dv hc : Bool) :
    (NewEncryptedStream hc (some ⟨some c, 0, i, s, dv⟩)
      = .ok { isClosed := false, hasCloser := hc, maxChunkSize := 65535,
              encoder := NewEncoder c i s, decoder := NewDecoder c i s dv,
              window := [] })
    ∧ (∀ m : Int, m < 0 →
        NewEncryptedStream hc (some ⟨some c, m, i, s, dv⟩)
          = .error (.err .nonPositiveChunkSize)) := by
  have hov : ¬ ((c.maxOverhead : Int) < 0) := Int.not_lt.mpr (Int.natCast_nonneg _)
  have hns : ¬ ((c.nonceSize : Int) < 0) := Int.not_lt.mpr (Int.natCast_nonneg _)
  constructor
  · simp only [NewEncryptedStream, MergeConfig, DefaultConfig, Config.Verify,
      if_neg (by simp : ¬ ((0 : Int) ≠ 0)), if_neg hov, if_neg hns,
      if_neg (by norm_num : ¬ ((65535 : Int) ≤ 0)), Bool.or_false]
    rfl
  · intro m hm
    simp only [NewEncryptedStream, MergeConfig, DefaultConfig, Config.Verify,
      if_pos (by omega : m ≠ 0), if_neg hov, if_neg hns,
      if_pos (by omega : m ≤ 0), Bool.or_false]

/-- Witness for the amended C7: a negative chunk size is rejected with the
chunk-size configuration error. -/
theorem c7_amended_zero_chunk_size_witness :
    NewEncryptedStream false (some ⟨some testCipher, -1, false, false, false⟩)
      = .error (.err .nonPositiveChunkSize) :=
  (c7_amended_zero_chunk_size testCipher false false false false).2 (-1) (by norm_num)

/-- C8 (code bug): `Config.Verify` has no nil-cipher check — with a nil
cipher it calls `Cipher.MaxOverhead()` on the nil interface value, a
nil-pointer panic, instead of returning a configuration error (a nil config,
by contrast, is rejected with an error); stream construction with a nil
cipher therefore panics inside `Verify` rather than rejecting the
configuration. -/
theorem c8_nil_cipher_panics :
    Config.Verify (some ⟨none, 1, false, false, false⟩) = .panicNilCipher
    ∧ Config.Verify none = .err .nilConfig
    ∧ NewEncryptedStream false (some ⟨none, 1, false, false, false⟩)
        = .error .panicNilCipher :=
  ⟨rfl, rfl, rfl⟩

/-- Counterexample to C9: a payload of 2^31 bytes is representable in the
4-byte little-endian length field (max 2^32 - 1), yet `writeVarBytes`
rejects it with the size error — the code compares against `math.MaxInt32`
(2^31 - 1), not against the field's maximum. -/
theorem c9_counterexample_maxint32 :
    (List.replicate 2147483648 (0 : Nat)).length ≤ 4294967295
    ∧ writeVarBytes (List.replicate 2147483648 (0 : Nat)) = .error .dataTooLarge := by
  constructor
  · simp only [List.length_replicate]
    norm_num
  · unfold writeVarBytes
    rw [if_pos (by simp only [List.length_replicate]; norm_num)]

/-- C9 (amended): `writeVarBytes` fails with the size error exactly when the
payload length exceeds `math.MaxInt32` (2^31 - 1); for every payload within
that bound it emits the 4-byte little-endian length followed by the whole
payload and reports no error. -/
theorem c9_amended_writeVarBytes (b : Bytes) :
    (2147483647 < b.length → writeVarBytes b = .error .dataTooLarge)
    ∧ (b.length ≤ 2147483647 → writeVarBytes b = .ok (putUint32LE b.length ++ b)) := by
  constructor
  · intro h
    unfold writeVarBytes
    rw [if_pos h]
  · intro h
    unfold writeVarBytes
    rw [if_neg (by omega)]

/-- Witness for the amended C9: a one-byte payload is framed as its
little-endian length followed by the payload, and a 2^31-byte payload is
rejected. -/
theorem c9_amended_writeVarBytes_witness :
    writeVarBytes [5] = .ok [1, 0, 0, 0, 5]
    ∧ writeVarBytes (List.replicate 2147483648 (0 : Nat)) = .error .dataTooLarge :=
  ⟨(c9_amended_writeVarBytes [5]).2 (by norm_num),
   (c9_amended_writeVarBytes (List.replicate 2147483648 (0 : Nat))).1
     (by simp only [List.length_replicate]; norm_num)⟩

/-- C10: whenever `Decode` returns an error — undersized record, wrong nonce
direction, wrong sequential nonce, or decryption failure — the decoder state
is unchanged; `nextNonce` advances only after a successful decrypt, so a
rejected record never moves the expected sequence forward. -/
theorem c10_decode_error_preserves_state (d : Decoder) (r : Bytes) (err : DecodeError)
    (d' : Decoder) (hn : 1 ≤ d.cipher.nonceSize)
    (h : d.Decode r = (.error err, d')) : d' = d := by
  unfold Decoder.Decode at h
  by_cases h1 : r.length ≤ d.cipher.nonceSize
  · rw [if_pos h1] at h
    exact (congrArg Prod.snd h).symm
  rw [if_neg h1] at h
  by_cases h2 : d.disableNonceVerification = false ∧ d.initiator = true
      ∧ ((r.take d.cipher.nonceSize).headD 0) >>> 7 ≠ 1
  · rw [if_pos h2] at h
    exact (congrArg Prod.snd h).symm
  rw [if_neg h2] at h
  by_cases h3 : d.disableNonceVerification = false ∧ d.initiator = false
      ∧ ((r.take d.cipher.nonceSize).headD 0) >>> 7 ≠ 0
  · rw [if_pos h3] at h
    exact (congrArg Prod.snd h).symm
  rw [if_neg h3] at h
  by_cases h4 : d.disableNonceVerification = false ∧ d.sequentialNonce = true
      ∧ r.take d.cipher.nonceSize ≠ d.nextNonce
  · rw [if_pos h4] at h
    exact (congrArg Prod.snd h).symm
  rw [if_neg h4] at h
  rcases hdec : d.cipher.decrypt (r.drop d.cipher.nonceSize) (r.take d.cipher.nonceSize)
    with _ | pt
  · rw [hdec] at h
    exact (congrArg Prod.snd h).symm
  · rw [hdec] at h
    by_cases h5 : d.sequentialNonce = true
    · simp [h5] at h
    · simp [h5] at h

/-- Witness for C10: decoding an empty record fails with the size error and
leaves the concrete decoder unchanged. -/
theorem c10_decode_error_preserves_state_witness :
    (witDecoder.Decode []).2 = witDecoder :=
  c10_decode_error_preserves_state witDecoder [] .invalidSize (witDecoder.Decode []).2
    (by decide) rfl
